import Mathlib

/-
Verification development for the custom-emoji resolver of
`src/app/organisms/emoji-board/custom-emoji.js`.

The resolver is pure, synchronous data transformation over already
materialized local state, so it embeds directly: raw Matrix events become
records whose optional JSON fields are `Option`s, JavaScript `Map`s become
insertion-ordered association lists, and each source function becomes a
Lean function of the same name and shape.
-/

set_option autoImplicit false

namespace CustomEmoji

/-- One value of the `images` mapping of a raw MSC2545 pack event:
`{url?, body?, info?, usage?}`.  An absent field is `none`.  The `info`
blob is opaque to the resolver, so it is kept as an uninterpreted
optional string. -/
structure RawImageData where
  url : Option String
  body : Option String
  info : Option String
  usage : Option (List String)
  deriving Repr, DecidableEq

/-- The optional `pack` metadata object of a raw pack event:
`{display_name?, avatar_url?, usage?, attribution?}`. -/
structure RawPackMeta where
  display_name : Option String
  avatar_url : Option String
  usage : Option (List String)
  attribution : Option String
  deriving Repr, DecidableEq

/-- The `content` of a raw pack event.  `images = none` models an absent
(`undefined`) `images` field; `some entries` lists the mapping in object
insertion order, as `Object.entries` enumerates it. -/
structure RawPackContent where
  pack : Option RawPackMeta
  images : Option (List (String × RawImageData))
  deriving Repr, DecidableEq

/-- A raw event as the resolver consumes it:
`{ content, state_key, event_id }`.  Account-data events carry no
`state_key` or `event_id`, hence the `Option`s. -/
structure RawEvent where
  content : RawPackContent
  state_key : Option String
  event_id : Option String
  deriving Repr, DecidableEq

/-- The slice of a room object the resolver touches: `room.name`,
`room.getMxcAvatarUrl()` (which may yield no URL), and the raw events of
`room.currentState.getStateEvents('im.ponies.room_emotes')`. -/
structure Room where
  name : String
  mxcAvatarUrl : Option String
  roomEmoteEvents : List RawEvent
  deriving Repr, DecidableEq

/-- A parsed image entry: shortcode, media reference, display body,
opaque metadata, and usage tags. -/
structure Image where
  shortcode : String
  mxc : String
  body : String
  info : Option String
  usage : List String
  deriving Repr, DecidableEq

/-- A normalized image pack, with a back-reference to its source event. -/
structure ImagePack where
  displayName : Option String
  avatar : Option String
  usage : List String
  attribution : Option String
  images : List Image
  event : RawEvent
  deriving Repr, DecidableEq

/-- Source `ImagePack.parsePack(rawPack, room)`: rejects events without an
`images` field, fills the display name and avatar from the fallback room,
defaults the pack usage to `['emoticon', 'sticker']`, and keeps exactly
the image entries whose `url` is truthy (present and non-empty), with
`body` defaulting to the shortcode and `usage` inherited from the pack
unless the entry overrides it. -/
def ImagePack.parsePack (rawPack : RawEvent) (room : Option Room) : Option ImagePack :=
  match rawPack.content.images with
  | none => none
  | some imageEntries =>
    let pack := rawPack.content.pack.getD ⟨none, none, none, none⟩
    let displayName := pack.display_name.or (room.map (fun r => r.name))
    let avatar := pack.avatar_url.or (room.bind (fun r => r.mxcAvatarUrl))
    let usage := pack.usage.getD ["emoticon", "sticker"]
    let attribution := pack.attribution
    let images := imageEntries.flatMap (fun e =>
      let data := e.2
      let shortcode := e.1
      let mxc := data.url
      let body := data.body.getD shortcode
      let info := data.info
      let usage_ := data.usage.getD usage
      match mxc with
      | some m => if m.isEmpty then [] else [⟨shortcode, m, body, info, usage_⟩]
      | none => [])
    some ⟨displayName, avatar, usage, attribution, images, rawPack⟩

/-- Source `getEmojis()`: the images whose usage tags include `'emoticon'`. -/
def ImagePack.getEmojis (p : ImagePack) : List Image :=
  p.images.filter (fun i => i.usage.contains "emoticon")

/-- Source `getStickers()`: the images whose usage tags include `'sticker'`. -/
def ImagePack.getStickers (p : ImagePack) : List Image :=
  p.images.filter (fun i => i.usage.contains "sticker")

/-- The content of the `im.ponies.emote_rooms` account-data event:
`{ rooms?: { [roomId]: { [stateKey]: {} } } }`.  Only the keys of each
per-room object are consumed, so each room maps to its list of enabled
state keys, in object insertion order. -/
structure EmoteRoomsContent where
  rooms : Option (List (String × List String))
  deriving Repr, DecidableEq

/-- The slice of the Matrix client the resolver touches: the raw event of
`getAccountData('im.ponies.user_emotes')`, the content of
`getAccountData('im.ponies.emote_rooms')`, and `getRoom` over the loaded
rooms. -/
structure Client where
  accountDataUserEmotes : Option RawEvent
  accountDataEmoteRooms : Option EmoteRoomsContent
  rooms : List (String × Room)
  deriving Repr, DecidableEq

/-- Source `mx.getRoom(roomId)`: the loaded room with this id, if any. -/
def Client.getRoom (mx : Client) (roomId : String) : Option Room :=
  (mx.rooms.find? (fun rp => rp.1 == roomId)).map (fun rp => rp.2)

/-- Source `getUserImagePack(mx)`: parse the `im.ponies.user_emotes` account
data (with no fallback room); if it parsed but has no display name,
default the name to `'Your Emoji'`. -/
def getUserImagePack (mx : Client) : Option ImagePack :=
  match mx.accountDataUserEmotes with
  | none => none
  | some accountDataEmoji =>
    match ImagePack.parsePack accountDataEmoji none with
    | none => none
    | some userImagePack =>
      some { userImagePack with displayName := userImagePack.displayName.or (some "Your Emoji") }

/-- Source `getPacksInRoom(room)`: parse every `im.ponies.room_emotes` state
event with the room as fallback, dropping the events that do not parse. -/
def getPacksInRoom (room : Room) : List ImagePack :=
  (room.roomEmoteEvents.map (fun p => ImagePack.parsePack p (some room))).reduceOption

/-- Source `getFromImagePackRooms(mx)`: for each room referenced by the
`im.ponies.emote_rooms` account data that the client has loaded, the
packs of that room whose `state_key` is among the enabled keys; rooms the
client has not loaded contribute nothing. -/
def getFromImagePackRooms (mx : Client) : List ImagePack :=
  let eventContent := mx.accountDataEmoteRooms.getD ⟨none⟩
  let emoteRooms := eventContent.rooms.getD []
  emoteRooms.flatMap (fun entry =>
    let keys := entry.2
    match mx.getRoom entry.1 with
    | some room =>
      (getPacksInRoom room).filter (fun pack =>
        match pack.event.state_key with
        | some sk => keys.contains sk
        | none => false)
    | none => [])

/-- Source `getRelevantPacks(room)`: the personal pack, the packs in the room,
and the user-enabled external packs, in that priority order, keeping each
source event id only at its first occurrence
(`packs.filter((pack, indx) => events.indexOf(pack.event.event_id) === indx)`).
The source reads the client from `room.client`; the embedding passes it
explicitly. -/
def getRelevantPacks (room : Room) (mx : Client) : List ImagePack :=
  let packs :=
    (match getUserImagePack mx with
     | some p => [p]
     | none => []) ++ getPacksInRoom room ++ getFromImagePackRooms mx
  let events := packs.map (fun pack => pack.event.event_id)
  (packs.enum.filter (fun ip => events.indexOf ip.2.event.event_id == ip.1)).map (fun ip => ip.2)

/-- Modelled from the spec: the standard emoji table (`./emoji`, not part
of the sources) is a static ordered list of built-in emoji, each carrying
one or more shortcode aliases; `getShortcodeToEmoji` branches on whether
the `shortcodes` field is an array, and `getEmojiForCompletion` reads a
primary `shortcode` field. -/
inductive Shortcodes where
  | one (s : String)
  | many (l : List String)
  deriving Repr, DecidableEq

/-- Modelled from the spec: one entry of the standard emoji table, with
its unicode text, its primary shortcode, and its alias field. -/
structure StandardEmoji where
  unicode : String
  shortcode : String
  shortcodes : Shortcodes
  deriving Repr, DecidableEq

/-- A value of the shortcode map: either a standard emoji of the built-in
table or a custom image from a pack. -/
inductive Emoji where
  | standard (e : StandardEmoji)
  | custom (i : Image)
  deriving Repr, DecidableEq

/-- The shortcode under which an `Emoji` value presents itself. -/
def Emoji.shortcode : Emoji → String
  | .standard e => e.shortcode
  | .custom i => i.shortcode

/-- JavaScript `Map.prototype.set` on an insertion-ordered association list: an
existing key keeps its position and gets the new value, a new key is
appended. -/
def mset {β : Type} (m : List (String × β)) (k : String) (v : β) : List (String × β) :=
  if m.any (fun p => p.1 == k) then m.map (fun p => if p.1 == k then (k, v) else p)
  else m ++ [(k, v)]

/-- JavaScript `Map.prototype.get`. -/
def mget? {β : Type} (m : List (String × β)) (k : String) : Option β :=
  (m.find? (fun p => p.1 == k)).map (fun p => p.2)

/-- JavaScript `Map.prototype.has`. -/
def mhas {β : Type} (m : List (String × β)) (k : String) : Bool :=
  m.any (fun p => p.1 == k)

/-- JavaScript `Map.prototype.values`, in insertion order. -/
def mvalues {β : Type} (m : List (String × β)) : List β :=
  m.map (fun p => p.2)

/-- The keys of the map, in insertion order. -/
def mkeys {β : Type} (m : List (String × β)) : List String :=
  m.map (fun p => p.1)

/-- The custom emoji overlay sequence
`getRelevantPacks(room).reverse().flatMap((pack) => pack.getEmojis())`,
shared by `getShortcodeToEmoji` and `getEmojiForCompletion`. -/
def customEmojiOverlayList (room : Room) (mx : Client) : List Image :=
  (getRelevantPacks room mx).reverse.flatMap (fun pack => pack.getEmojis)

/-- The seeding loop of `getShortcodeToEmoji`: every standard emoji is
written into the map under each of its alias shortcodes when the
`shortcodes` field is an array, and under the single string otherwise. -/
def standardShortcodeMap (emojis : List StandardEmoji) : List (String × Emoji) :=
  emojis.foldl (fun m emoji =>
    match emoji.shortcodes with
    | .many arr => arr.foldl (fun m' shortcode => mset m' shortcode (.standard emoji)) m
    | .one s => mset m s (.standard emoji)) []

/-- The custom overlay loop of `getEmojiForCompletion`: the custom emoji
written over an empty map in reverse priority order, later writes
winning. -/
def customShortcodeMap (room : Room) (mx : Client) : List (String × Image) :=
  (customEmojiOverlayList room mx).foldl
    (fun m emoji => mset m emoji.shortcode emoji) []

/-- Source `getShortcodeToEmoji(room)`: seed the map with every standard emoji
under each of its alias shortcodes (or its single string shortcode), then
write the custom emoji of the relevant packs in reverse priority order,
so that later writes win. -/
def getShortcodeToEmoji (room : Room) (mx : Client) (emojis : List StandardEmoji) :
    List (String × Emoji) :=
  (customEmojiOverlayList room mx).foldl
    (fun m emoji => mset m emoji.shortcode (.custom emoji)) (standardShortcodeMap emojis)

/-- Source `getEmojiForCompletion(room)`: dedup the custom emoji by shortcode
with the same reverse-priority overlay, then list the standard emoji
whose primary shortcode is not shadowed, followed by the custom emoji. -/
def getEmojiForCompletion (room : Room) (mx : Client) (emojis : List StandardEmoji) :
    List Emoji :=
  let allEmoji : List (String × Image) := customShortcodeMap room mx
  (emojis.filter (fun e => !(mhas allEmoji e.shortcode))).map Emoji.standard
    ++ (mvalues allEmoji).map Emoji.custom

/-- The deduplication rule of §4.1 of the spec, stated directly: keep the
first occurrence of each source event id, drop later duplicates. -/
def keepFirstByEventId : List ImagePack → List ImagePack
  | [] => []
  | p :: rest =>
    p :: keepFirstByEventId (rest.filter (fun q => !(q.event.event_id == p.event.event_id)))
termination_by l => l.length
decreasing_by exact Nat.lt_succ_of_le (List.length_filter_le _ _)

/-- An image entry as §3 of the spec describes it: retained exactly when
it carries a media reference (a truthy `url`), with the display body
defaulting to the shortcode and the usage tags inherited from the pack
unless the entry overrides them. -/
def specImage (packUsage : List String) (e : String × RawImageData) : Option Image :=
  match e.2.url with
  | some m =>
    if m.isEmpty then none
    else some ⟨e.1, m, e.2.body.getD e.1, e.2.info, e.2.usage.getD packUsage⟩
  | none => none

/-! The failure-semantics claim is about exceptions, which the typed
embedding above cannot raise by construction.  To settle it, the parsing
entry point is embedded a second time over untyped JavaScript values,
with the dynamic semantics of property access made explicit: reading a
property of `null` or `undefined` throws a `TypeError`, reading a missing
property of anything else yields `undefined`. -/

/-- A JavaScript value, as far as the resolver can observe one. -/
inductive Jval where
  | null
  | undefined
  | bool (b : Bool)
  | num (n : Int)
  | str (s : String)
  | arr (elems : List Jval)
  | obj (fields : List (String × Jval))

/-- True for every value except `null` and `undefined`: exactly the
values whose properties may be read without throwing. -/
def Jval.hasProps : Jval → Bool
  | .null => false
  | .undefined => false
  | _ => true

/-- True exactly for `undefined`, as `typeof v === 'undefined'` tests. -/
def Jval.isUndefined : Jval → Bool
  | .undefined => true
  | _ => false

/-- The result a property read would produce on a value whose properties
may be read: the first matching field of an object, `undefined` for a
missing field and for every field of a primitive or array (the resolver
never reads index or length properties). -/
def Jval.fieldD : Jval → String → Jval
  | .obj fields, name =>
    (((fields.find? (fun p => p.1 == name)).map (fun p => p.2)).getD .undefined)
  | _, _ => .undefined

/-- A JavaScript property read `base.name`: throws a `TypeError` when the
base is `null` or `undefined`, otherwise yields `Jval.fieldD`. -/
def Jval.getField (v : Jval) (name : String) : Except String Jval :=
  if v.hasProps then .ok (v.fieldD name) else .error "TypeError"

/-- The entry list `Object.entries` would produce on a value it accepts:
the own enumerable entries of an object, index/value entries of an array,
index/character entries of a string, and nothing for other primitives. -/
def Jval.entriesD : Jval → List (String × Jval)
  | .obj fields => fields
  | .arr elems => (elems.enum).map (fun ie => (toString ie.1, ie.2))
  | .str s => (s.toList.enum).map (fun ic => (toString ic.1, .str (String.mk [ic.2])))
  | _ => []

/-- Dynamic `Object.entries`: throws a `TypeError` on `null` and
`undefined`, otherwise yields `Jval.entriesD`. -/
def Jval.entries (v : Jval) : Except String (List (String × Jval)) :=
  if v.hasProps then .ok v.entriesD else .error "TypeError"

/-- Nullish coalescing `a ?? b`. -/
def Jval.nullish : Jval → Jval → Jval
  | .null, d => d
  | .undefined, d => d
  | v, _ => v

/-- JavaScript truthiness, as `if (mxc)` tests it. -/
def Jval.truthy : Jval → Bool
  | .null => false
  | .undefined => false
  | .bool b => b
  | .num n => !(n == 0)
  | .str s => !s.isEmpty
  | .arr _ => true
  | .obj _ => true

/-- An image entry as the dynamic parser produces it; apart from the
shortcode (always a string object key) the fields are whatever values the
event carried. -/
structure ImageJ where
  shortcode : String
  mxc : Jval
  body : Jval
  info : Jval
  usage : Jval

/-- An image pack as the dynamic parser produces it. -/
structure ImagePackJ where
  displayName : Jval
  avatar : Jval
  usage : Jval
  attribution : Jval
  images : List ImageJ
  event : Jval

/-- The body of the `flatMap` of `parsePack`, over untyped values: reads
`url`, `body`, `info` and `usage` off one entry value (throwing if the
value is `null`/`undefined`) and keeps the entry only when `url` is
truthy. -/
def parseImageJS (usage : Jval) (e : String × Jval) : Except String (List ImageJ) := do
  let data := e.2
  let shortcode := e.1
  let mxc ← data.getField "url"
  let body := (← data.getField "body").nullish (Jval.str shortcode)
  let info ← data.getField "info"
  let usage_ := (← data.getField "usage").nullish usage
  if mxc.truthy then
    pure [ImageJ.mk shortcode mxc body info usage_]
  else
    pure ([] : List ImageJ)

/-- Source `ImagePack.parsePack` once more, over untyped values and with
every property access running in `Except`, so that a thrown `TypeError`
surfaces as an `error` result.  The fallback room stays the typed room
object, since the callers pass a genuine room or nothing at all. -/
def parsePackJS (rawPack : Jval) (room : Option Room) :
    Except String (Option ImagePackJ) := do
  let content ← rawPack.getField "content"
  let images0 ← content.getField "images"
  if images0.isUndefined then
    return none
  else
    let packMeta := (← content.getField "pack").nullish (Jval.obj [])
    let displayName := (← packMeta.getField "display_name").nullish
      (match room with | some r => Jval.str r.name | none => Jval.undefined)
    let avatar := (← packMeta.getField "avatar_url").nullish
      (match room with
       | some r => (match r.mxcAvatarUrl with | some u => Jval.str u | none => Jval.null)
       | none => Jval.undefined)
    let usage := (← packMeta.getField "usage").nullish
      (Jval.arr [Jval.str "emoticon", Jval.str "sticker"])
    let attribution ← packMeta.getField "attribution"
    let imageEntries ← images0.entries
    let imageLists ← imageEntries.mapM (parseImageJS usage)
    return some ⟨displayName, avatar, usage, attribution, imageLists.flatten, rawPack⟩

/-- The shape under which `parsePackJS` cannot throw: the event and its
`content` value have properties, and, unless the `images` field is
absent, it is not `null` and none of its entry values is `null` or
`undefined`. -/
def packEventNoThrow (rawPack : Jval) : Bool :=
  rawPack.hasProps &&
    (let content := rawPack.fieldD "content"
     content.hasProps &&
       (let images0 := content.fieldD "images"
        images0.isUndefined ||
          (images0.hasProps && images0.entriesD.all (fun e => e.2.hasProps))))

/-! Concrete fixtures: small events, rooms and clients used to evaluate
the resolver on closed inputs. -/

/-- Fixture: a personal pack event with one image under shortcode `x`. -/
def evPersonal : RawEvent :=
  ⟨⟨none, some [("x", ⟨some "mxc://personal/x", none, none, none⟩)]⟩, none, some "$p"⟩

/-- Fixture: the image `evPersonal` declares. -/
def imgPersonalX : Image := ⟨"x", "mxc://personal/x", "x", none, ["emoticon", "sticker"]⟩

/-- Fixture: the personal pack as `getUserImagePack` returns it, its
display name defaulted. -/
def packPersonal : ImagePack :=
  ⟨some "Your Emoji", none, ["emoticon", "sticker"], none, [imgPersonalX], evPersonal⟩

/-- Fixture: the personal pack as `parsePack` alone returns it, unnamed. -/
def packPersonalUnnamed : ImagePack :=
  ⟨none, none, ["emoticon", "sticker"], none, [imgPersonalX], evPersonal⟩

/-- Fixture: a room-local pack event also defining shortcode `x`. -/
def evRoomPack : RawEvent :=
  ⟨⟨some ⟨some "Room Pack", none, none, none⟩,
    some [("x", ⟨some "mxc://room/x", none, none, none⟩)]⟩, some "", some "$r"⟩

/-- Fixture: the room the resolver is asked about. -/
def roomMain : Room := ⟨"Main Room", none, [evRoomPack]⟩

/-- Fixture: an external pack-room event also defining shortcode `x`,
with state key `packE`. -/
def evExternalPack : RawEvent :=
  ⟨⟨some ⟨some "External Pack", none, none, none⟩,
    some [("x", ⟨some "mxc://external/x", none, none, none⟩)]⟩, some "packE", some "$e"⟩

/-- Fixture: the external pack room. -/
def roomExternal : Room := ⟨"External Room", none, [evExternalPack]⟩

/-- Fixture: a client with the personal pack and the external pack room
enabled under key `packE`. -/
def clientMain : Client :=
  ⟨some evPersonal, some ⟨some [("!e:x", ["packE"])]⟩, [("!e:x", roomExternal)]⟩

/-- Fixture: a three-entry standard emoji table; the third entry's
primary shortcode `x` collides with the custom packs. -/
def emojisStd : List StandardEmoji :=
  [⟨"😀", "grinning", .many ["grinning", "happy"]⟩,
   ⟨"❤", "heart", .one "heart"⟩,
   ⟨"🦊", "x", .many ["x"]⟩]

/-- Fixture: an event whose content has no `images` field at all. -/
def evNoImages : RawEvent := ⟨⟨none, none⟩, none, none⟩

/-- Fixture: an event whose `images` mapping is present but empty. -/
def evEmptyImages : RawEvent := ⟨⟨none, some []⟩, none, none⟩

/-- Fixture: the pack `parsePack` builds from `evEmptyImages`. -/
def packEmptyImages : ImagePack :=
  ⟨none, none, ["emoticon", "sticker"], none, [], evEmptyImages⟩

/-- Fixture: a pack event with a valid entry `a`, an entry `b` lacking a
media reference, and a valid entry `c` without overrides; the pack-level
usage is `sticker` only. -/
def evMixed : RawEvent :=
  ⟨⟨some ⟨some "Mixed", none, some ["sticker"], none⟩,
    some [("a", ⟨some "mxc://m/a", some "Body A", none, some ["emoticon"]⟩),
          ("b", ⟨none, none, none, none⟩),
          ("c", ⟨some "mxc://m/c", none, none, none⟩)]⟩, some "mixed", some "$m"⟩

/-- Fixture: two pack events in one room, with state keys `pack1` and
`pack2`. -/
def evPack1 : RawEvent :=
  ⟨⟨none, some [("p1", ⟨some "mxc://r/p1", none, none, none⟩)]⟩, some "pack1", some "$1"⟩

/-- Fixture: the second pack event of `roomRX`. -/
def evPack2 : RawEvent :=
  ⟨⟨none, some [("p2", ⟨some "mxc://r/p2", none, none, none⟩)]⟩, some "pack2", some "$2"⟩

/-- Fixture: the room holding `evPack1` and `evPack2`. -/
def roomRX : Room := ⟨"RX", none, [evPack1, evPack2]⟩

/-- Fixture: a client that enabled only state key `pack1` of `roomRX`. -/
def clientRX : Client := ⟨none, some ⟨some [("!r:x", ["pack1"])]⟩, [("!r:x", roomRX)]⟩

/-- Fixture: the pack parsed from `evPack1` with `roomRX` as fallback. -/
def packOfEv1 : ImagePack :=
  ⟨some "RX", none, ["emoticon", "sticker"], none,
   [⟨"p1", "mxc://r/p1", "p1", none, ["emoticon", "sticker"]⟩], evPack1⟩

/-- Fixture: a client with no account data at all. -/
def clientEmpty : Client := ⟨none, none, []⟩

/-- Fixture: a client whose personal pack parses but carries no name. -/
def clientUnnamed : Client := ⟨some evPersonal, none, []⟩

/-- Fixture: a sticker-only pack event: the pack usage is `sticker` and
the single image inherits it. -/
def evSticker : RawEvent :=
  ⟨⟨some ⟨some "Stickers", none, some ["sticker"], none⟩,
    some [("s", ⟨some "mxc://m/s", none, none, none⟩)]⟩, some "st", some "$s"⟩

/-- Fixture: the sticker-only image of `evSticker`. -/
def imgSticker : Image := ⟨"s", "mxc://m/s", "s", none, ["sticker"]⟩

/-- Fixture: the pack parsed from `evSticker`. -/
def packSticker : ImagePack :=
  ⟨some "Stickers", none, ["sticker"], none, [imgSticker], evSticker⟩

/-- Fixture: the room holding the sticker-only pack. -/
def roomSticker : Room := ⟨"Sticker Room", none, [evSticker]⟩

/-- Fixture: an untyped pack event whose `images` mapping holds a `null`
entry value. -/
def jvalBadPack : Jval :=
  Jval.obj [("content", Jval.obj [("images", Jval.obj [("a", Jval.null)])])]

/-- Fixture: an untyped pack event of the shape `packEventNoThrow`
accepts. -/
def jvalGoodPack : Jval :=
  Jval.obj [("content", Jval.obj
    [("images", Jval.obj [("a", Jval.obj [("url", Jval.str "mxc://g/a")])])])]

/-! Lemmas about the JavaScript `Map` model. -/

theorem find?_replace_eq {β : Type} (m : List (String × β)) (k : String) (v : β)
    (h : m.any (fun p => p.1 == k) = true) :
    (m.map (fun p => if p.1 == k then (k, v) else p)).find? (fun p => p.1 == k) = some (k, v) := by
  induction m with
  | nil => simp at h
  | cons p rest ih =>
    cases hbk : (p.1 == k) with
    | true =>
      simp only [List.map_cons, hbk, if_true]
      rw [List.find?_cons_of_pos _ (by simp)]
    | false =>
      simp only [List.map_cons, hbk, Bool.false_eq_true, if_false]
      rw [List.find?_cons_of_neg _ (by simp [hbk])]
      apply ih
      rw [List.any_cons, hbk, Bool.false_or] at h
      exact h

theorem find?_replace_ne {β : Type} (m : List (String × β)) (k : String) (v : β) (q : String)
    (hq : ¬(q = k)) :
    (m.map (fun p => if p.1 == k then (k, v) else p)).find? (fun p => p.1 == q) =
      m.find? (fun p => p.1 == q) := by
  induction m with
  | nil => rfl
  | cons p rest ih =>
    cases hbk : (p.1 == k) with
    | true =>
      have hpk : p.1 = k := by simpa using hbk
      have h1 : ¬((k : String) = q) := fun e => hq e.symm
      have h2 : ¬(p.1 = q) := by rw [hpk]; exact h1
      simp only [List.map_cons, hbk, if_true]
      rw [List.find?_cons_of_neg _ (by simpa using h1),
        List.find?_cons_of_neg _ (by simpa using h2), ih]
    | false =>
      simp only [List.map_cons, hbk, Bool.false_eq_true, if_false]
      cases hbq : (p.1 == q) with
      | true =>
        rw [List.find?_cons_of_pos _ (by exact hbq), List.find?_cons_of_pos _ (by exact hbq)]
      | false =>
        rw [List.find?_cons_of_neg _ (by simp [hbq]),
          List.find?_cons_of_neg _ (by simp [hbq]), ih]

theorem mget?_mset {β : Type} (m : List (String × β)) (k : String) (v : β) (q : String) :
    mget? (mset m k v) q = if q = k then some v else mget? m q := by
  unfold mset mget?
  by_cases hany : m.any (fun p => p.1 == k) = true
  · rw [if_pos hany]
    by_cases hq : q = k
    · subst hq
      rw [if_pos rfl, find?_replace_eq m q v hany]
      rfl
    · rw [if_neg hq, find?_replace_ne m k v q hq]
  · rw [if_neg hany]
    have hnone : ∀ p ∈ m, ¬(p.1 = k) := by
      intro p hp hk
      exact hany (List.any_eq_true.mpr ⟨p, hp, by simpa using hk⟩)
    by_cases hq : q = k
    · subst hq
      have h1 : m.find? (fun p => p.1 == q) = none :=
        List.find?_eq_none.mpr (fun p hp => by simpa using hnone p hp)
      rw [if_pos rfl, List.find?_append, h1, Option.none_or,
        List.find?_cons_of_pos _ (by simp)]
      rfl
    · have h2 : List.find? (fun p => p.1 == q) [(k, v)] = none := by
        have h3 : ¬((k : String) = q) := fun e => hq e.symm
        refine List.find?_eq_none.mpr (fun p hp => ?_)
        rw [List.mem_singleton] at hp
        subst hp
        simpa using h3
      rw [if_neg hq, List.find?_append, h2, Option.or_none]

theorem mem_of_mem_mset {β : Type} {m : List (String × β)} {k : String} {v : β}
    {e : String × β} (h : e ∈ mset m k v) : e ∈ m ∨ e = (k, v) := by
  unfold mset at h
  by_cases hany : m.any (fun p => p.1 == k) = true
  · rw [if_pos hany] at h
    obtain ⟨p, hp, he⟩ := List.mem_map.mp h
    cases hbk : (p.1 == k) with
    | true =>
      right
      rw [← he]
      simp [hbk]
    | false =>
      left
      rw [← he]
      simpa [hbk] using hp
  · rw [if_neg hany] at h
    rcases List.mem_append.mp h with h1 | h1
    · exact Or.inl h1
    · exact Or.inr (List.mem_singleton.mp h1)

theorem mkeys_mset {β : Type} (m : List (String × β)) (k : String) (v : β) :
    mkeys (mset m k v) = if k ∈ mkeys m then mkeys m else mkeys m ++ [k] := by
  have hmem : (m.any (fun p => p.1 == k) = true) ↔ k ∈ mkeys m := by
    simp [mkeys]
  unfold mset
  by_cases hany : m.any (fun p => p.1 == k) = true
  · rw [if_pos hany, if_pos (hmem.mp hany)]
    unfold mkeys
    rw [List.map_map]
    refine List.map_congr_left (fun p _ => ?_)
    by_cases hp : p.1 = k
    · simp [hp]
    · simp [hp]
  · rw [if_neg hany, if_neg (fun h => hany (hmem.mpr h))]
    unfold mkeys
    rw [List.map_append]
    rfl

theorem mhas_iff_mem_mkeys {β : Type} (m : List (String × β)) (k : String) :
    mhas m k = true ↔ k ∈ mkeys m := by
  simp [mhas, mkeys]

/-! Lemmas about writing a whole list into the map, as the overlay
loops do. -/

theorem mget?_foldl_mset {α β : Type} (kf : α → String) (vf : α → β)
    (l : List α) (m0 : List (String × β)) (q : String) :
    mget? (l.foldl (fun m e => mset m (kf e) (vf e)) m0) q =
      ((l.reverse.find? (fun e => kf e == q)).map vf).or (mget? m0 q) := by
  induction l using List.reverseRecOn with
  | nil => simp
  | append_singleton l a ih =>
    rw [List.foldl_append, List.reverse_append]
    simp only [List.foldl_cons, List.foldl_nil, List.reverse_cons, List.reverse_nil,
      List.nil_append, List.cons_append, List.nil_append]
    rw [mget?_mset]
    by_cases hq : q = kf a
    · rw [if_pos hq, List.find?_cons_of_pos _ (by simpa using hq.symm)]
      rfl
    · rw [if_neg hq, List.find?_cons_of_neg _ (by simpa using fun e => hq e.symm)]
      exact ih

theorem mem_foldl_mset {α β : Type} (kf : α → String) (vf : α → β) (l : List α)
    (m0 : List (String × β)) (e : String × β)
    (h : e ∈ l.foldl (fun m x => mset m (kf x) (vf x)) m0) :
    e ∈ m0 ∨ ∃ a ∈ l, e = (kf a, vf a) := by
  induction l generalizing m0 with
  | nil => exact Or.inl h
  | cons a l ih =>
    rw [List.foldl_cons] at h
    rcases ih (mset m0 (kf a) (vf a)) h with h1 | h1
    · rcases mem_of_mem_mset h1 with h2 | h2
      · exact Or.inl h2
      · exact Or.inr ⟨a, List.mem_cons_self a l, h2⟩
    · obtain ⟨b, hb, he⟩ := h1
      exact Or.inr ⟨b, List.mem_cons_of_mem a hb, he⟩

theorem mkeys_foldl_mset {α β : Type} (kf : α → String) (vf : α → β) (l : List α)
    (m0 : List (String × β)) :
    mkeys (l.foldl (fun m x => mset m (kf x) (vf x)) m0) =
      (l.map kf).foldl (fun ks x => if x ∈ ks then ks else ks ++ [x]) (mkeys m0) := by
  induction l generalizing m0 with
  | nil => rfl
  | cons a l ih =>
    rw [List.foldl_cons, List.map_cons, List.foldl_cons, ih, mkeys_mset]

theorem mem_foldl_insertKey (l : List String) (ks0 : List String) (q : String) :
    q ∈ l.foldl (fun ks x => if x ∈ ks then ks else ks ++ [x]) ks0 ↔ q ∈ ks0 ∨ q ∈ l := by
  induction l generalizing ks0 with
  | nil => simp
  | cons a l ih =>
    rw [List.foldl_cons, ih]
    by_cases h : a ∈ ks0
    · rw [if_pos h]
      simp only [List.mem_cons]
      constructor
      · rintro (h1 | h1)
        · exact Or.inl h1
        · exact Or.inr (Or.inr h1)
      · rintro (h1 | h1 | h1)
        · exact Or.inl h1
        · exact Or.inl (h1 ▸ h)
        · exact Or.inr h1
    · rw [if_neg h]
      simp only [List.mem_append, List.mem_singleton, List.mem_cons]
      tauto

theorem nodup_foldl_insertKey (l : List String) (ks0 : List String) (h : ks0.Nodup) :
    (l.foldl (fun ks x => if x ∈ ks then ks else ks ++ [x]) ks0).Nodup := by
  induction l generalizing ks0 with
  | nil => exact h
  | cons a l ih =>
    rw [List.foldl_cons]
    by_cases ha : a ∈ ks0
    · rw [if_pos ha]
      exact ih ks0 h
    · rw [if_neg ha]
      refine ih _ (List.Nodup.append h (List.nodup_singleton a) ?_)
      intro x hx hxa
      rw [List.mem_singleton] at hxa
      exact ha (hxa ▸ hx)

theorem length_filter_not_add {α : Type} (p : α → Bool) (l : List α) :
    (l.filter (fun a => !(p a))).length + (l.filter p).length = l.length := by
  induction l with
  | nil => rfl
  | cons a l ih =>
    by_cases h : p a = true
    · rw [List.filter_cons_of_pos h, List.filter_cons_of_neg (by simp [h])]
      simp only [List.length_cons]
      omega
    · have h0 : p a = false := by simpa using h
      rw [List.filter_cons_of_pos (by simp [h0]), List.filter_cons_of_neg (by simp [h0])]
      simp only [List.length_cons]
      omega

/-! Lemmas about the index-based deduplication of `getRelevantPacks`. -/

theorem indexOf_append_head {α : Type} [BEq α] [LawfulBEq α] (s t : List α) (a : α)
    (h : ¬a ∈ s) : (s ++ a :: t).indexOf a = s.length := by
  induction s with
  | nil => simp [List.indexOf_cons]
  | cons b s ih =>
    have hba : (b == a) = false := by
      rw [beq_eq_false_iff_ne]
      intro e
      exact h (e ▸ List.mem_cons_self b s)
    have hs : ¬a ∈ s := fun hm => h (List.mem_cons_of_mem b hm)
    rw [List.cons_append, List.indexOf_cons, hba, Bool.cond_false, ih hs, List.length_cons]

theorem indexOf_append_mem_lt {α : Type} [BEq α] [LawfulBEq α] (s t : List α) (a : α)
    (h : a ∈ s) : (s ++ t).indexOf a < s.length := by
  induction s with
  | nil => simp at h
  | cons b s ih =>
    rw [List.cons_append, List.indexOf_cons]
    cases hba : (b == a) with
    | true => simp
    | false =>
      rw [Bool.cond_false]
      have hs : a ∈ s := by
        rcases List.mem_cons.mp h with h1 | h1
        · exact absurd h1.symm (beq_eq_false_iff_ne.mp hba)
        · exact h1
      have := ih hs
      rw [List.length_cons]
      omega

theorem dedupJS_aux (l : List ImagePack) (seen F : List (Option String))
    (hF : F = seen ++ l.map (fun p => p.event.event_id)) :
    ((l.enumFrom seen.length).filter
        (fun ip => F.indexOf ip.2.event.event_id == ip.1)).map (fun ip => ip.2) =
      keepFirstByEventId (l.filter (fun q => !(seen.contains q.event.event_id))) := by
  induction l generalizing seen F with
  | nil => simp [keepFirstByEventId]
  | cons p rest ih =>
    subst hF
    rw [List.map_cons, List.enumFrom_cons]
    have hS : seen ++ p.event.event_id :: rest.map (fun p => p.event.event_id) =
        (seen ++ [p.event.event_id]) ++ rest.map (fun p => p.event.event_id) := by
      rw [List.append_cons]
    have hSlen : (seen ++ [p.event.event_id]).length = seen.length + 1 := by simp
    have htail := ih (seen ++ [p.event.event_id])
      ((seen ++ [p.event.event_id]) ++ rest.map (fun p => p.event.event_id)) rfl
    rw [hSlen] at htail
    by_cases hseen : p.event.event_id ∈ seen
    · have hlt : (seen ++ p.event.event_id :: rest.map
          (fun p => p.event.event_id)).indexOf p.event.event_id < seen.length :=
        indexOf_append_mem_lt seen _ p.event.event_id hseen
      rw [List.filter_cons_of_neg (by simp only [beq_iff_eq]; omega)]
      rw [List.filter_cons_of_neg (by simp [hseen])]
      rw [hS, htail]
      refine congrArg keepFirstByEventId (List.filter_congr (fun q _ => ?_)) 
      by_cases hq : q.event.event_id ∈ seen
      · simp [hq]
      · by_cases hqp : q.event.event_id = p.event.event_id
        · rw [hqp]
          simp [hseen, hqp ▸ hq]
        · simp [hq, hqp]
    · have hidx : (seen ++ p.event.event_id :: rest.map
          (fun p => p.event.event_id)).indexOf p.event.event_id = seen.length :=
        indexOf_append_head seen _ p.event.event_id hseen
      rw [List.filter_cons_of_pos (by simp [hidx])]
      rw [List.filter_cons_of_pos (by simp [hseen])]
      rw [List.map_cons]
      rw [keepFirstByEventId, List.filter_filter]
      rw [hS, htail]
      refine congrArg (fun l => p :: l) (congrArg keepFirstByEventId
        (List.filter_congr (fun q _ => ?_)))
      by_cases hq : q.event.event_id ∈ seen
      · simp [hq]
      · by_cases hqp : q.event.event_id = p.event.event_id
        · simp [hq, hqp]
        · simp [hq, hqp]

theorem getRelevantPacks_eq_keepFirst (room : Room) (mx : Client) :
    getRelevantPacks room mx =
      keepFirstByEventId ((getUserImagePack mx).toList ++ getPacksInRoom room
        ++ getFromImagePackRooms mx) := by
  have hml : (match getUserImagePack mx with
      | some p => [p]
      | none => ([] : List ImagePack)) = (getUserImagePack mx).toList := by
    cases getUserImagePack mx <;> rfl
  simp only [getRelevantPacks, hml]
  have h := dedupJS_aux ((getUserImagePack mx).toList ++ getPacksInRoom room
      ++ getFromImagePackRooms mx) [] _ (List.nil_append _).symm
  simp only [List.length_nil] at h
  rw [List.enum]
  rw [h]
  refine congrArg keepFirstByEventId ?_
  have : ∀ q : ImagePack, (!(([] : List (Option String)).contains q.event.event_id)) = true := by
    intro q
    rfl
  rw [List.filter_congr (fun q _ => this q), List.filter_true]

theorem keepFirst_mem_subset (l : List ImagePack) (q : ImagePack)
    (h : q ∈ keepFirstByEventId l) : q ∈ l := by
  induction l using keepFirstByEventId.induct with
  | case1 => simp [keepFirstByEventId] at h
  | case2 p rest ih =>
    rw [keepFirstByEventId, List.mem_cons] at h
    rcases h with h1 | h1
    · exact h1 ▸ List.mem_cons_self p rest
    · exact List.mem_cons_of_mem p (List.mem_of_mem_filter (ih h1))

theorem keepFirst_eid_nodup (l : List ImagePack) :
    ((keepFirstByEventId l).map (fun p => p.event.event_id)).Nodup := by
  induction l using keepFirstByEventId.induct with
  | case1 => simp [keepFirstByEventId]
  | case2 p rest ih =>
    rw [keepFirstByEventId, List.map_cons]
    refine List.nodup_cons.mpr ⟨?_, ih⟩
    intro hmem
    obtain ⟨q, hq, he⟩ := List.mem_map.mp hmem
    have hq2 := keepFirst_mem_subset _ _ hq
    have hf := (List.mem_filter.mp hq2).2
    simp [he] at hf

theorem getRelevantPacks_cons_of_personal (room : Room) (mx : Client) (P : ImagePack)
    (hP : getUserImagePack mx = some P) :
    ∃ rest, getRelevantPacks room mx = P :: rest := by
  rw [getRelevantPacks_eq_keepFirst, hP]
  rw [show (some P).toList ++ getPacksInRoom room ++ getFromImagePackRooms mx =
      P :: (getPacksInRoom room ++ getFromImagePackRooms mx) by simp, keepFirstByEventId]
  exact ⟨_, rfl⟩

/-! Lemmas about the overlay loops of `getShortcodeToEmoji` and
`getEmojiForCompletion`. -/

theorem reverse_customEmojiOverlayList (room : Room) (mx : Client) :
    (customEmojiOverlayList room mx).reverse =
      (getRelevantPacks room mx).flatMap (fun p => p.getEmojis.reverse) := by
  unfold customEmojiOverlayList
  rw [List.reverse_flatMap, List.reverse_reverse]
  rfl

theorem mget?_getShortcodeToEmoji (room : Room) (mx : Client)
    (emojis : List StandardEmoji) (q : String) :
    mget? (getShortcodeToEmoji room mx emojis) q =
      (((customEmojiOverlayList room mx).reverse.find?
          (fun e => e.shortcode == q)).map Emoji.custom).or
        (mget? (standardShortcodeMap emojis) q) := by
  unfold getShortcodeToEmoji
  exact mget?_foldl_mset (fun i => i.shortcode) (fun i => Emoji.custom i)
    (customEmojiOverlayList room mx) (standardShortcodeMap emojis) q

theorem standardShortcodeMap_values_aux (emojis : List StandardEmoji)
    (m0 : List (String × Emoji)) (h0 : ∀ p ∈ m0, ∃ e, p.2 = Emoji.standard e) :
    ∀ p ∈ emojis.foldl (fun m emoji =>
        match emoji.shortcodes with
        | .many arr => arr.foldl (fun m' shortcode => mset m' shortcode (.standard emoji)) m
        | .one s => mset m s (.standard emoji)) m0,
      ∃ e, p.2 = Emoji.standard e := by
  induction emojis generalizing m0 with
  | nil => exact h0
  | cons a l ih =>
    rw [List.foldl_cons]
    apply ih
    intro p hp
    cases ha : a.shortcodes with
    | many arr =>
      rw [ha] at hp
      rcases mem_foldl_mset (fun s => s) (fun _ => Emoji.standard a) arr m0 p hp with h | h
      · exact h0 p h
      · obtain ⟨s, _, he⟩ := h
        exact ⟨a, by rw [he]⟩
    | one s =>
      rw [ha] at hp
      rcases mem_of_mem_mset hp with h | h
      · exact h0 p h
      · exact ⟨a, by rw [h]⟩

theorem standardShortcodeMap_values (emojis : List StandardEmoji) (p : String × Emoji)
    (hp : p ∈ standardShortcodeMap emojis) : ∃ e, p.2 = Emoji.standard e :=
  standardShortcodeMap_values_aux emojis [] (by intro p h; simp at h) p hp

theorem overlay_mem_emoticon (room : Room) (mx : Client) (i : Image)
    (hi : i ∈ customEmojiOverlayList room mx) : "emoticon" ∈ i.usage := by
  unfold customEmojiOverlayList at hi
  obtain ⟨pk, _, hi2⟩ := List.mem_flatMap.mp hi
  have h := (List.mem_filter.mp hi2).2
  simpa using h

theorem customShortcodeMap_entries (room : Room) (mx : Client) (p : String × Image)
    (hp : p ∈ customShortcodeMap room mx) :
    p.2.shortcode = p.1 ∧ p.2 ∈ customEmojiOverlayList room mx := by
  unfold customShortcodeMap at hp
  rcases mem_foldl_mset (fun i => i.shortcode) (fun i => i) _ _ p hp with h | h
  · simp at h
  · obtain ⟨a, ha, he⟩ := h
    rw [he]
    exact ⟨rfl, ha⟩

theorem nodup_mkeys_customShortcodeMap (room : Room) (mx : Client) :
    (mkeys (customShortcodeMap room mx)).Nodup := by
  unfold customShortcodeMap
  rw [mkeys_foldl_mset]
  exact nodup_foldl_insertKey _ _ (by simp [mkeys])

theorem mem_mkeys_customShortcodeMap (room : Room) (mx : Client) (q : String) :
    q ∈ mkeys (customShortcodeMap room mx) ↔
      q ∈ (customEmojiOverlayList room mx).map (fun i => i.shortcode) := by
  unfold customShortcodeMap
  rw [mkeys_foldl_mset, mem_foldl_insertKey]
  simp [mkeys]

theorem length_customShortcodeMap (room : Room) (mx : Client) :
    (customShortcodeMap room mx).length =
      ((customEmojiOverlayList room mx).map (fun i => i.shortcode)).toFinset.card := by
  have h1 : (customShortcodeMap room mx).length =
      (mkeys (customShortcodeMap room mx)).length := by
    simp [mkeys]
  have h2 : (mkeys (customShortcodeMap room mx)).toFinset =
      ((customEmojiOverlayList room mx).map (fun i => i.shortcode)).toFinset := by
    ext x
    simp only [List.mem_toFinset]
    exact mem_mkeys_customShortcodeMap room mx x
  rw [h1, ← List.toFinset_card_of_nodup (nodup_mkeys_customShortcodeMap room mx), h2]

/-! Lemmas for the dynamic (untyped) parser. -/

theorem except_bind_ok {ε α β : Type} (a : α) (f : α → Except ε β) :
    (Except.ok a >>= f) = f a := rfl

theorem getField_ok (v : Jval) (n : String) (hv : v.hasProps = true) :
    v.getField n = Except.ok (v.fieldD n) := by
  unfold Jval.getField
  rw [if_pos hv]

theorem entries_ok (v : Jval) (hv : v.hasProps = true) :
    v.entries = Except.ok v.entriesD := by
  unfold Jval.entries
  rw [if_pos hv]

theorem nullish_obj_hasProps (v : Jval) (fields : List (String × Jval)) :
    (v.nullish (Jval.obj fields)).hasProps = true := by
  cases v <;> rfl

theorem mapM_ok_of_forall {α β : Type} (l : List α) (f : α → Except String β)
    (h : ∀ e ∈ l, ∃ r, f e = Except.ok r) : ∃ rs, l.mapM f = Except.ok rs := by
  induction l with
  | nil => exact ⟨[], rfl⟩
  | cons a l ih =>
    obtain ⟨r, hr⟩ := h a (List.mem_cons_self a l)
    obtain ⟨rs, hrs⟩ := ih (fun e he => h e (List.mem_cons_of_mem a he))
    refine ⟨r :: rs, ?_⟩
    rw [List.mapM_cons, hr, except_bind_ok, hrs, except_bind_ok]
    rfl

theorem parseImageJS_ok (usage : Jval) (e : String × Jval) (he : e.2.hasProps = true) :
    ∃ r, parseImageJS usage e = Except.ok r := by
  unfold parseImageJS
  have hurl := getField_ok e.2 "url" he
  have hbody := getField_ok e.2 "body" he
  have hinfo := getField_ok e.2 "info" he
  have husage := getField_ok e.2 "usage" he
  simp only [hurl, hbody, hinfo, husage, except_bind_ok]
  split
  · exact ⟨_, rfl⟩
  · exact ⟨_, rfl⟩

theorem mapM_parseImageJS_ok (usage : Jval) (l : List (String × Jval))
    (h : ∀ e ∈ l, e.2.hasProps = true) :
    ∃ rs, l.mapM (parseImageJS usage) = Except.ok rs :=
  mapM_ok_of_forall l _ (fun e he => parseImageJS_ok usage e (h e he))

/-- The success direction of the dynamic parse: whenever the shape
condition `packEventNoThrow` holds, `parsePackJS` returns a value. -/
theorem parsePackJS_ok_of_noThrow (rawPack : Jval) (room : Option Room)
    (h : packEventNoThrow rawPack = true) :
    ∃ r, parsePackJS rawPack room = Except.ok r := by
  simp only [packEventNoThrow, Bool.and_eq_true, Bool.or_eq_true] at h
  obtain ⟨h1, h2, h3⟩ := h
  unfold parsePackJS
  simp only [getField_ok rawPack "content" h1, except_bind_ok,
    getField_ok (rawPack.fieldD "content") "images" h2,
    getField_ok (rawPack.fieldD "content") "pack" h2]
  cases hu : ((rawPack.fieldD "content").fieldD "images").isUndefined with
  | true =>
    simp only [hu, if_true]
    exact ⟨_, rfl⟩
  | false =>
    rcases h3 with h3 | ⟨h3a, h3b⟩
    · rw [hu] at h3
      cases h3
    · simp only [hu, Bool.false_eq_true, if_false]
      have hpm : ∀ n : String,
          ((((rawPack.fieldD "content").fieldD "pack").nullish (Jval.obj [])).getField n) =
            Except.ok ((((rawPack.fieldD "content").fieldD "pack").nullish
              (Jval.obj [])).fieldD n) :=
        fun n => getField_ok _ n (nullish_obj_hasProps _ _)
      simp only [hpm, except_bind_ok, entries_ok _ h3a]
      have hall : ∀ e ∈ ((rawPack.fieldD "content").fieldD "images").entriesD,
          e.2.hasProps = true := by
        intro e he
        exact List.all_eq_true.mp h3b e he
      obtain ⟨rs, hrs⟩ :=
        mapM_parseImageJS_ok _ ((rawPack.fieldD "content").fieldD "images").entriesD hall
      rw [hrs, except_bind_ok]
      exact ⟨_, rfl⟩

theorem except_err_bind {ε α β : Type} (e : ε) (f : α → Except ε β) :
    (Except.error e >>= f) = Except.error e := rfl

theorem getField_err (v : Jval) (n : String) (hv : v.hasProps = false) :
    v.getField n = Except.error "TypeError" := by
  unfold Jval.getField
  rw [if_neg (by simp [hv])]

theorem entries_err (v : Jval) (hv : v.hasProps = false) :
    v.entries = Except.error "TypeError" := by
  unfold Jval.entries
  rw [if_neg (by simp [hv])]

theorem parseImageJS_err (usage : Jval) (e : String × Jval)
    (he : e.2.hasProps = false) : parseImageJS usage e = Except.error "TypeError" := by
  unfold parseImageJS
  simp only [getField_err e.2 "url" he, except_err_bind]

theorem mapM_parseImageJS_err (usage : Jval) (l : List (String × Jval))
    (h : ∃ e ∈ l, e.2.hasProps = false) :
    l.mapM (parseImageJS usage) = Except.error "TypeError" := by
  induction l with
  | nil => simp at h
  | cons a l ih =>
    rw [List.mapM_cons]
    cases ha : a.2.hasProps with
    | false =>
      rw [parseImageJS_err usage a ha]
      rfl
    | true =>
      obtain ⟨r, hr⟩ := parseImageJS_ok usage a ha
      rw [hr, except_bind_ok]
      have hl : ∃ e ∈ l, e.2.hasProps = false := by
        obtain ⟨e, he, hf⟩ := h
        rcases List.mem_cons.mp he with he1 | he1
        · rw [he1] at hf
          rw [hf] at ha
          cases ha
        · exact ⟨e, he1, hf⟩
      rw [ih hl]
      rfl

/-- The failure direction of the dynamic parse: whenever the shape
condition `packEventNoThrow` fails, `parsePackJS` throws a TypeError. -/
theorem parsePackJS_err_of_throw (rawPack : Jval) (room : Option Room)
    (h : packEventNoThrow rawPack = false) :
    parsePackJS rawPack room = Except.error "TypeError" := by
  unfold parsePackJS
  cases h1 : rawPack.hasProps with
  | false =>
    rw [getField_err _ _ h1]
    rfl
  | true =>
    rw [getField_ok _ _ h1, except_bind_ok]
    cases h2 : (rawPack.fieldD "content").hasProps with
    | false =>
      rw [getField_err _ _ h2]
      rfl
    | true =>
      rw [getField_ok _ _ h2, except_bind_ok]
      cases hu : ((rawPack.fieldD "content").fieldD "images").isUndefined with
      | true =>
        simp only [packEventNoThrow, h1, h2, hu, Bool.true_and, Bool.true_or] at h
        cases h
      | false =>
        simp only [hu, Bool.false_eq_true, if_false]
        cases h3a : ((rawPack.fieldD "content").fieldD "images").hasProps with
        | false =>
          have hpm : ∀ n : String,
              ((((rawPack.fieldD "content").fieldD "pack").nullish
                  (Jval.obj [])).getField n) =
                Except.ok ((((rawPack.fieldD "content").fieldD "pack").nullish
                  (Jval.obj [])).fieldD n) :=
            fun n => getField_ok _ n (nullish_obj_hasProps _ _)
          simp only [getField_ok (rawPack.fieldD "content") "pack" h2, except_bind_ok,
            hpm, entries_err _ h3a]
          rfl
        | true =>
          simp only [packEventNoThrow, h1, h2, hu, h3a, Bool.true_and,
            Bool.false_or] at h
          have hex : ∃ e ∈ ((rawPack.fieldD "content").fieldD "images").entriesD,
              e.2.hasProps = false := by
            by_contra hc
            push_neg at hc
            have hall : ((rawPack.fieldD "content").fieldD "images").entriesD.all
                (fun e => e.2.hasProps) = true :=
              List.all_eq_true.mpr (fun e he => by simpa using hc e he)
            rw [hall] at h
            cases h
          have hpm : ∀ n : String,
              ((((rawPack.fieldD "content").fieldD "pack").nullish
                  (Jval.obj [])).getField n) =
                Except.ok ((((rawPack.fieldD "content").fieldD "pack").nullish
                  (Jval.obj [])).fieldD n) :=
            fun n => getField_ok _ n (nullish_obj_hasProps _ _)
          simp only [getField_ok (rawPack.fieldD "content") "pack" h2, except_bind_ok,
            hpm, entries_ok _ h3a]
          rw [mapM_parseImageJS_err _ _ hex]
          rfl

theorem mget?_mem {β : Type} {m : List (String × β)} {q : String} {v : β}
    (h : mget? m q = some v) : ∃ p ∈ m, p.2 = v := by
  unfold mget? at h
  cases hf : m.find? (fun p => p.1 == q) with
  | none =>
    rw [hf] at h
    cases h
  | some p =>
    rw [hf] at h
    refine ⟨p, List.mem_of_find?_eq_some hf, ?_⟩
    simpa using h

theorem flatMap_specImage (imgs : List (String × RawImageData)) (usage : List String) :
    (imgs.flatMap (fun e =>
      match e.2.url with
      | some m => if m.isEmpty then [] else
          [⟨e.1, m, e.2.body.getD e.1, e.2.info, e.2.usage.getD usage⟩]
      | none => ([] : List Image))) = imgs.filterMap (specImage usage) := by
  induction imgs with
  | nil => rfl
  | cons e rest ih =>
    rw [List.flatMap_cons, List.filterMap_cons]
    cases hu : e.2.url with
    | none => simp [specImage, hu, ih]
    | some m =>
      by_cases hm : m.isEmpty
      · simp [specImage, hu, hm, ih]
      · simp [specImage, hu, hm, ih]

/-! The claim theorems. -/

/-- C6: for every pack event whose content has no images mapping,
`parsePack` returns null rather than raising an error, for any fallback
room argument. -/
theorem parsePack_none_of_no_images (ev : RawEvent) (room : Option Room)
    (h : ev.content.images = none) : ImagePack.parsePack ev room = none := by
  unfold ImagePack.parsePack
  rw [h]

theorem parsePack_none_of_no_images_witness :
    evNoImages.content.images = none ∧
      ImagePack.parsePack evNoImages (some roomMain) = none :=
  ⟨rfl, parsePack_none_of_no_images evNoImages (some roomMain) rfl⟩

/-- C5 counterexample: an event whose images mapping is present but
empty still makes `parsePack` construct an ImagePack (with an empty image
list), so a pack is not only constructed for non-empty images mappings. -/
theorem parsePack_empty_images_counterexample :
    ImagePack.parsePack evEmptyImages none = some packEmptyImages := by
  decide

/-- C5 (amended): an ImagePack is constructed by `parsePack` exactly when
the source event declares an images mapping, empty or not — the parse
succeeds if and only if the `images` field is present. -/
theorem parsePack_isSome_iff_images (ev : RawEvent) (room : Option Room) :
    (ImagePack.parsePack ev room).isSome = ev.content.images.isSome := by
  cases hev : ev.content.images with
  | none =>
    unfold ImagePack.parsePack
    rw [hev]
    rfl
  | some l =>
    unfold ImagePack.parsePack
    rw [hev]
    rfl

/-- C7: for every pack event with an images mapping, the parsed image
list is exactly the entry list filtered through the spec's description of
one image entry: entries lacking a (truthy) media reference are dropped,
the rest keep their shortcode, default their body to the shortcode, and
inherit the pack usage unless they override it. -/
theorem parsePack_images_spec (ev : RawEvent) (room : Option Room)
    (imgs : List (String × RawImageData)) (h : ev.content.images = some imgs) :
    ∃ p, ImagePack.parsePack ev room = some p ∧
      p.images = imgs.filterMap (specImage p.usage) := by
  unfold ImagePack.parsePack
  rw [h]
  exact ⟨_, rfl, flatMap_specImage imgs _⟩

theorem parsePack_images_spec_witness :
    evMixed.content.images =
      some [("a", ⟨some "mxc://m/a", some "Body A", none, some ["emoticon"]⟩),
            ("b", ⟨none, none, none, none⟩),
            ("c", ⟨some "mxc://m/c", none, none, none⟩)] ∧
    ∃ p, ImagePack.parsePack evMixed (some roomMain) = some p ∧
      p.images = [("a", (⟨some "mxc://m/a", some "Body A", none, some ["emoticon"]⟩ :
          RawImageData)),
        ("b", ⟨none, none, none, none⟩),
        ("c", ⟨some "mxc://m/c", none, none, none⟩)].filterMap (specImage p.usage) :=
  ⟨rfl, parsePack_images_spec evMixed (some roomMain) _ rfl⟩

/-- C9: `getUserImagePack` returns null when the `im.ponies.user_emotes`
account data is absent, and when it is present and parses to a pack with
no display name, the returned pack is that pack with display name
`"Your Emoji"`. -/
theorem getUserImagePack_spec (mx : Client) :
    (mx.accountDataUserEmotes = none → getUserImagePack mx = none) ∧
    (∀ ev p, mx.accountDataUserEmotes = some ev →
      ImagePack.parsePack ev none = some p → p.displayName = none →
      getUserImagePack mx = some { p with displayName := some "Your Emoji" }) := by
  constructor
  · intro h
    unfold getUserImagePack
    rw [h]
  · intro ev p hev hp hdn
    simp only [getUserImagePack, hev, hp, hdn, Option.none_or]

theorem getUserImagePack_spec_witness :
    (getUserImagePack clientEmpty = none) ∧
      (getUserImagePack clientUnnamed = some packPersonal) := by
  refine ⟨(getUserImagePack_spec clientEmpty).1 rfl, ?_⟩
  have h := (getUserImagePack_spec clientUnnamed).2 evPersonal packPersonalUnnamed
    rfl (by decide) rfl
  rw [h]
  decide

/-- C8: for every client whose `im.ponies.emote_rooms` account data
references rooms with enabled state keys, `getFromImagePackRooms` returns
exactly the packs of the loaded referenced rooms whose state key was
enabled; referenced rooms the client has not loaded contribute nothing. -/
theorem getFromImagePackRooms_spec (mx : Client) (c : EmoteRoomsContent)
    (lst : List (String × List String)) (h1 : mx.accountDataEmoteRooms = some c)
    (h2 : c.rooms = some lst) (pack : ImagePack) :
    pack ∈ getFromImagePackRooms mx ↔
      ∃ entry ∈ lst, ∃ room, mx.getRoom entry.1 = some room ∧
        pack ∈ getPacksInRoom room ∧ ∃ k ∈ entry.2, pack.event.state_key = some k := by
  simp only [getFromImagePackRooms, h1, h2, Option.getD_some]
  constructor
  · intro hmem
    obtain ⟨entry, hentry, hp⟩ := List.mem_flatMap.mp hmem
    cases hroom : mx.getRoom entry.1 with
    | none =>
      rw [hroom] at hp
      cases hp
    | some room =>
      rw [hroom] at hp
      have h3 := List.mem_filter.mp hp
      refine ⟨entry, hentry, room, hroom, h3.1, ?_⟩
      have h4 := h3.2
      cases hsk : pack.event.state_key with
      | none =>
        rw [hsk] at h4
        cases h4
      | some sk =>
        rw [hsk] at h4
        exact ⟨sk, by simpa using h4, rfl⟩
  · rintro ⟨entry, hentry, room, hroom, hmem, k, hk, hsk⟩
    refine List.mem_flatMap.mpr ⟨entry, hentry, ?_⟩
    rw [hroom]
    refine List.mem_filter.mpr ⟨hmem, ?_⟩
    rw [hsk]
    simpa using hk

theorem getFromImagePackRooms_spec_witness :
    (clientRX.accountDataEmoteRooms = some ⟨some [("!r:x", ["pack1"])]⟩) ∧
    (packOfEv1 ∈ getFromImagePackRooms clientRX ↔
      ∃ entry ∈ [("!r:x", ["pack1"])], ∃ room, clientRX.getRoom entry.1 = some room ∧
        packOfEv1 ∈ getPacksInRoom room ∧
        ∃ k ∈ entry.2, packOfEv1.event.state_key = some k) ∧
    getFromImagePackRooms clientRX = [packOfEv1] :=
  ⟨rfl,
    getFromImagePackRooms_spec clientRX ⟨some [("!r:x", ["pack1"])]⟩
      [("!r:x", ["pack1"])] rfl rfl packOfEv1,
    by decide⟩

/-- C10: a custom image whose usage tags do not include `emoticon` is
excluded from every pack's emoji list, from `getShortcodeToEmoji`, and
from `getEmojiForCompletion`, even though membership in the pack's image
list is untouched. -/
theorem emoticon_gating (room : Room) (mx : Client) (emojis : List StandardEmoji)
    (img : Image) (h : ¬("emoticon" ∈ img.usage)) :
    (∀ pack : ImagePack, img ∉ pack.getEmojis) ∧
    (∀ q e, mget? (getShortcodeToEmoji room mx emojis) q = some e →
      e ≠ Emoji.custom img) ∧
    Emoji.custom img ∉ getEmojiForCompletion room mx emojis := by
  have hnotpack : ∀ pack : ImagePack, img ∉ pack.getEmojis := by
    intro pack hmem
    have h2 := (List.mem_filter.mp hmem).2
    simp at h2
    exact h h2
  have hnotoverlay : img ∉ customEmojiOverlayList room mx :=
    fun hm => h (overlay_mem_emoticon room mx img hm)
  refine ⟨hnotpack, ?_, ?_⟩
  · intro q e hq he
    subst he
    rw [mget?_getShortcodeToEmoji] at hq
    cases hfind : (customEmojiOverlayList room mx).reverse.find?
        (fun e => e.shortcode == q) with
    | some e2 =>
      rw [hfind] at hq
      simp only [Option.map_some', Option.or_some, Option.some.injEq] at hq
      have hmem := List.mem_of_find?_eq_some hfind
      rw [List.mem_reverse] at hmem
      have he2 : e2 = img := by injection hq
      exact hnotoverlay (he2 ▸ hmem)
    | none =>
      rw [hfind] at hq
      simp only [Option.map_none', Option.none_or] at hq
      obtain ⟨p, hp, hv⟩ := mget?_mem hq
      obtain ⟨e0, he0⟩ := standardShortcodeMap_values emojis p hp
      rw [he0] at hv
      cases hv
  · intro hmem
    simp only [getEmojiForCompletion] at hmem
    rcases List.mem_append.mp hmem with h1 | h1
    · obtain ⟨e, _, he⟩ := List.mem_map.mp h1
      cases he
    · obtain ⟨i, hi, he⟩ := List.mem_map.mp h1
      have hei : i = img := by
        injection he with h3
      subst hei
      unfold mvalues at hi
      obtain ⟨p2, hp2, hv⟩ := List.mem_map.mp hi
      have hover := (customShortcodeMap_entries room mx p2 hp2).2
      rw [hv] at hover
      exact hnotoverlay hover

theorem emoticon_gating_witness :
    (¬("emoticon" ∈ imgSticker.usage) ∧ imgSticker ∈ packSticker.images) ∧
    ((∀ pack : ImagePack, imgSticker ∉ pack.getEmojis) ∧
      (∀ q e, mget? (getShortcodeToEmoji roomSticker clientEmpty emojisStd) q = some e →
        e ≠ Emoji.custom imgSticker) ∧
      Emoji.custom imgSticker ∉ getEmojiForCompletion roomSticker clientEmpty emojisStd) :=
  ⟨⟨by decide, by decide⟩,
    emoticon_gating roomSticker clientEmpty emojisStd imgSticker (by decide)⟩

/-- C1: when the personal pack, a room-local pack, and a user-enabled
external pack all define the same shortcode, `getShortcodeToEmoji`
resolves that shortcode to the personal pack's definition: the custom
packs are overlaid in reverse priority order, so the highest-priority
pack's emoji wins over standard emoji and over lower-priority packs. -/
theorem getShortcodeToEmoji_priority (room : Room) (mx : Client)
    (emojis : List StandardEmoji) (s : String) (P : ImagePack) (i : Image)
    (hP : getUserImagePack mx = some P)
    (hi : i ∈ P.getEmojis) (hisc : i.shortcode = s)
    (huniq : ∀ j ∈ P.getEmojis, j.shortcode = s → j = i)
    (hR : ∃ pk ∈ getPacksInRoom room, ∃ im ∈ pk.getEmojis, im.shortcode = s)
    (hE : ∃ pk ∈ getFromImagePackRooms mx, ∃ im ∈ pk.getEmojis, im.shortcode = s) :
    mget? (getShortcodeToEmoji room mx emojis) s = some (Emoji.custom i) := by
  rw [mget?_getShortcodeToEmoji]
  obtain ⟨rest, hrest⟩ := getRelevantPacks_cons_of_personal room mx P hP
  rw [reverse_customEmojiOverlayList, hrest, List.flatMap_cons]
  have hfound : P.getEmojis.reverse.find? (fun e => e.shortcode == s) = some i := by
    cases hf : P.getEmojis.reverse.find? (fun e => e.shortcode == s) with
    | none =>
      rw [List.find?_eq_none] at hf
      exact absurd (by simpa using hisc) (hf i (List.mem_reverse.mpr hi))
    | some j =>
      have hj1 := List.find?_some hf
      have hj2 := List.mem_reverse.mp (List.mem_of_find?_eq_some hf)
      rw [huniq j hj2 (by simpa using hj1)]
  rw [List.find?_append, hfound]
  rfl

theorem getShortcodeToEmoji_priority_witness :
    (getUserImagePack clientMain = some packPersonal ∧
      imgPersonalX ∈ packPersonal.getEmojis ∧ imgPersonalX.shortcode = "x" ∧
      (∀ j ∈ packPersonal.getEmojis, j.shortcode = "x" → j = imgPersonalX) ∧
      (∃ pk ∈ getPacksInRoom roomMain, ∃ im ∈ pk.getEmojis, im.shortcode = "x") ∧
      (∃ pk ∈ getFromImagePackRooms clientMain, ∃ im ∈ pk.getEmojis,
        im.shortcode = "x")) ∧
    mget? (getShortcodeToEmoji roomMain clientMain emojisStd) "x" =
      some (Emoji.custom imgPersonalX) :=
  ⟨⟨by decide, by decide, by decide, by decide, by decide, by decide⟩,
    getShortcodeToEmoji_priority roomMain clientMain emojisStd "x" packPersonal
      imgPersonalX (by decide) (by decide) (by decide) (by decide) (by decide)
      (by decide)⟩

/-- C3: `getRelevantPacks` is the concatenation, in priority order, of
the personal pack, the room-local packs and the user-enabled external
packs, deduplicated by source event id keeping first occurrences, and its
event ids never repeat. -/
theorem getRelevantPacks_spec (room : Room) (mx : Client) :
    getRelevantPacks room mx =
      keepFirstByEventId ((getUserImagePack mx).toList ++ getPacksInRoom room
        ++ getFromImagePackRooms mx) ∧
    ((getRelevantPacks room mx).map (fun p => p.event.event_id)).Nodup := by
  refine ⟨getRelevantPacks_eq_keepFirst room mx, ?_⟩
  rw [getRelevantPacks_eq_keepFirst room mx]
  exact keepFirst_eid_nodup _

/-- C4 counterexample: `parsePack`, run with JavaScript property-access
semantics on an event whose images mapping holds a `null` entry value,
throws a TypeError instead of degrading to a null or empty result, so not
every malformed input avoids exceptions. -/
theorem parsePackJS_throws_counterexample :
    parsePackJS jvalBadPack none = Except.error "TypeError" := rfl

/-- C4 (amended): absent data never causes an exception (the typed
operations are total), but property access on a `null`/`undefined` value
throws.  For `parsePack` under dynamic JavaScript semantics the boundary
is exact: the parse returns a value when the event, its content, and —
unless the `images` field is absent — the images value and every image
entry value can be property-read (are not `null`/`undefined`), and it
throws a TypeError in every other case. -/
theorem parsePackJS_throw_spec (rawPack : Jval) (room : Option Room) :
    (packEventNoThrow rawPack = true → ∃ r, parsePackJS rawPack room = Except.ok r) ∧
    (packEventNoThrow rawPack = false →
      parsePackJS rawPack room = Except.error "TypeError") :=
  ⟨parsePackJS_ok_of_noThrow rawPack room, parsePackJS_err_of_throw rawPack room⟩

theorem parsePackJS_throw_spec_witness :
    (packEventNoThrow jvalGoodPack = true ∧
      ∃ r, parsePackJS jvalGoodPack none = Except.ok r) ∧
    (packEventNoThrow jvalBadPack = false ∧
      parsePackJS jvalBadPack none = Except.error "TypeError") :=
  ⟨⟨rfl, (parsePackJS_throw_spec jvalGoodPack none).1 rfl⟩,
   ⟨rfl, (parsePackJS_throw_spec jvalBadPack none).2 rfl⟩⟩

/-- C2: the completion list's length equals the number of standard emoji
minus the number shadowed by a custom shortcode, plus the number of
distinct custom shortcodes; all standard emoji precede all custom emoji;
and, provided the standard table's primary shortcodes are distinct, no
shortcode repeats. -/
theorem getEmojiForCompletion_spec (room : Room) (mx : Client)
    (emojis : List StandardEmoji)
    (hnd : (emojis.map (fun e => e.shortcode)).Nodup) :
    (getEmojiForCompletion room mx emojis).length =
      (emojis.length -
        (emojis.filter (fun e =>
          decide (e.shortcode ∈ (customEmojiOverlayList room mx).map
            (fun i => i.shortcode)))).length) +
      ((customEmojiOverlayList room mx).map (fun i => i.shortcode)).toFinset.card ∧
    (∃ (A : List StandardEmoji) (B : List Image), getEmojiForCompletion room mx emojis =
      A.map Emoji.standard ++ B.map Emoji.custom) ∧
    ((getEmojiForCompletion room mx emojis).map Emoji.shortcode).Nodup := by
  have hpred : ∀ e : StandardEmoji,
      (mhas (customShortcodeMap room mx) e.shortcode) =
        decide (e.shortcode ∈ (customEmojiOverlayList room mx).map
          (fun i => i.shortcode)) := by
    intro e
    have hiff := (mhas_iff_mem_mkeys (customShortcodeMap room mx) e.shortcode).trans
      (mem_mkeys_customShortcodeMap room mx e.shortcode)
    by_cases hm : e.shortcode ∈ (customEmojiOverlayList room mx).map (fun i => i.shortcode)
    · rw [hiff.mpr hm, decide_eq_true hm]
    · rw [decide_eq_false hm]
      exact Bool.eq_false_iff.mpr (fun ht => hm (hiff.mp ht))
  have hcongr : emojis.filter (fun e => !(mhas (customShortcodeMap room mx) e.shortcode)) =
      emojis.filter (fun e => !(decide (e.shortcode ∈ (customEmojiOverlayList room mx).map
        (fun i => i.shortcode)))) :=
    List.filter_congr (fun e _ => by rw [hpred e])
  have hres : getEmojiForCompletion room mx emojis =
      (emojis.filter (fun e => !(mhas (customShortcodeMap room mx) e.shortcode))).map
        Emoji.standard ++ (mvalues (customShortcodeMap room mx)).map Emoji.custom := rfl
  refine ⟨?_, ⟨_, _, hres⟩, ?_⟩
  · rw [hres, hcongr, List.length_append, List.length_map, List.length_map]
    have hsum := length_filter_not_add (fun e : StandardEmoji =>
      decide (e.shortcode ∈ (customEmojiOverlayList room mx).map
        (fun i => i.shortcode))) emojis
    have hmv : (mvalues (customShortcodeMap room mx)).length =
        (customShortcodeMap room mx).length := by
      unfold mvalues
      rw [List.length_map]
    rw [hmv, length_customShortcodeMap room mx]
    omega
  · rw [hres, List.map_append, List.map_map, List.map_map]
    have hstd : (List.map (Emoji.shortcode ∘ Emoji.standard)
        (emojis.filter (fun e => !(mhas (customShortcodeMap room mx) e.shortcode)))) =
        (emojis.filter (fun e => !(mhas (customShortcodeMap room mx) e.shortcode))).map
          (fun e => e.shortcode) := rfl
    have hcus : (List.map (Emoji.shortcode ∘ Emoji.custom)
        (mvalues (customShortcodeMap room mx))) = mkeys (customShortcodeMap room mx) := by
      unfold mvalues mkeys
      rw [List.map_map]
      refine List.map_congr_left (fun p hp => ?_)
      have h1 := (customShortcodeMap_entries room mx p hp).1
      simpa using h1
    rw [hstd, hcus]
    refine List.Nodup.append ?_ (nodup_mkeys_customShortcodeMap room mx) ?_
    · have hsub : List.Sublist
          ((emojis.filter
            (fun e => !(mhas (customShortcodeMap room mx) e.shortcode))).map
              (fun e => e.shortcode))
          (emojis.map (fun e => e.shortcode)) :=
        (List.filter_sublist emojis).map _
      exact hsub.nodup hnd
    · intro x hx1 hx2
      obtain ⟨e, he, hex⟩ := List.mem_map.mp hx1
      have hf := (List.mem_filter.mp he).2
      rw [← hex] at hx2
      have hhas := (mhas_iff_mem_mkeys _ _).mpr hx2
      simp [hhas] at hf

theorem getEmojiForCompletion_spec_witness :
    (emojisStd.map (fun e => e.shortcode)).Nodup ∧
    ((getEmojiForCompletion roomMain clientMain emojisStd).length =
      (emojisStd.length -
        (emojisStd.filter (fun e =>
          decide (e.shortcode ∈ (customEmojiOverlayList roomMain clientMain).map
            (fun i => i.shortcode)))).length) +
      ((customEmojiOverlayList roomMain clientMain).map
        (fun i => i.shortcode)).toFinset.card ∧
    (∃ (A : List StandardEmoji) (B : List Image),
      getEmojiForCompletion roomMain clientMain emojisStd =
        A.map Emoji.standard ++ B.map Emoji.custom) ∧
    ((getEmojiForCompletion roomMain clientMain emojisStd).map Emoji.shortcode).Nodup) :=
  ⟨by decide, getEmojiForCompletion_spec roomMain clientMain emojisStd (by decide)⟩

end CustomEmoji